import Mathlib

/-!
Verification of the fileManager repository: a shallow embedding of the
navigation-history composable, the file-size formatter, the documented
filesystem batch operations, and the tag/identity/association store that
backs the tagging engine, together with proofs of the specified properties.
-/

namespace FileManager

/-! ## Navigation history (src/composables/useNavigation.ts) -/

/-- State of the navigation composable: a history of paths and the index of
the current entry (`-1` when the history is empty). -/
structure NavigationState where
  history : List String
  currentIndex : Int
deriving DecidableEq, Repr

/-- The module-level initial state: empty history, index -1. -/
def initialNavState : NavigationState := ⟨[], -1⟩

/-- currentIndex > 0 -/
def canGoBack (s : NavigationState) : Bool := 0 < s.currentIndex

/-- currentIndex >= 0 and currentIndex < history.length - 1 -/
def canGoForward (s : NavigationState) : Bool :=
  decide (0 ≤ s.currentIndex) && decide (s.currentIndex < (s.history.length : Int) - 1)

/-- The history entry at currentIndex when that index is in bounds, the empty
string otherwise. -/
def currentPath (s : NavigationState) : String :=
  if 0 ≤ s.currentIndex ∧ s.currentIndex < (s.history.length : Int) then
    s.history.getD s.currentIndex.toNat ""
  else ""

/-- navigateTo: a no-op when the argument equals the current path; otherwise
truncates the history after currentIndex (the slice is empty when the index
is -1), appends the new path and points at it. The embedding agrees with the
JS slice call on every state with currentIndex >= -1, which covers all
reachable states. -/
def navigateTo (s : NavigationState) (path : String) : NavigationState :=
  if currentPath s = path then s
  else
    let hist :=
      if s.currentIndex < (s.history.length : Int) - 1 then
        s.history.take (s.currentIndex + 1).toNat
      else s.history
    let hist2 := hist ++ [path]
    ⟨hist2, (hist2.length : Int) - 1⟩

/-- goBack: when possible, decrement the index and return the new current
path; otherwise return null (none) and keep the state. -/
def goBack (s : NavigationState) : Option String × NavigationState :=
  if canGoBack s then
    let s2 : NavigationState := { s with currentIndex := s.currentIndex - 1 }
    (some (currentPath s2), s2)
  else (none, s)

/-- goForward: when possible, increment the index and return the new current
path; otherwise return null (none) and keep the state. -/
def goForward (s : NavigationState) : Option String × NavigationState :=
  if canGoForward s then
    let s2 : NavigationState := { s with currentIndex := s.currentIndex + 1 }
    (some (currentPath s2), s2)
  else (none, s)

/-- initialize: replace the whole state with a one-entry history. -/
def initializeNav (path : String) : NavigationState := ⟨[path], 0⟩

/-- clear: replace the whole state with the empty history. -/
def clearNav : NavigationState := ⟨[], -1⟩

/-- States reachable from the initial state by the composable's operations. -/
inductive NavReachable : NavigationState → Prop
  | empty : NavReachable initialNavState
  | nav (s : NavigationState) (p : String) :
      NavReachable s → NavReachable (navigateTo s p)
  | back (s : NavigationState) : NavReachable s → NavReachable (goBack s).2
  | fwd (s : NavigationState) : NavReachable s → NavReachable (goForward s).2
  | init (p : String) : NavReachable (initializeNav p)
  | clr : NavReachable clearNav

/-- The index bound maintained by every operation. -/
def NavInv (s : NavigationState) : Prop :=
  -1 ≤ s.currentIndex ∧ s.currentIndex ≤ (s.history.length : Int) - 1

theorem navInv_initial : NavInv initialNavState := by
  constructor <;> simp [initialNavState]

theorem navInv_navigateTo (s : NavigationState) (p : String) (h : NavInv s) :
    NavInv (navigateTo s p) := by
  unfold navigateTo
  split
  · exact h
  · constructor
    · simp
      omega
    · simp

theorem navInv_goBack (s : NavigationState) (h : NavInv s) :
    NavInv (goBack s).2 := by
  unfold goBack
  rcases h with ⟨h1, h2⟩
  by_cases hb : canGoBack s
  · simp only [hb, if_true]
    unfold canGoBack at hb
    simp only [decide_eq_true_eq] at hb
    constructor
    · show -1 ≤ s.currentIndex - 1
      omega
    · show s.currentIndex - 1 ≤ (s.history.length : Int) - 1
      omega
  · simp only [hb, if_false]
    exact ⟨h1, h2⟩

theorem navInv_goForward (s : NavigationState) (h : NavInv s) :
    NavInv (goForward s).2 := by
  unfold goForward
  rcases h with ⟨h1, h2⟩
  by_cases hb : canGoForward s
  · simp only [hb, if_true]
    unfold canGoForward at hb
    simp only [Bool.and_eq_true, decide_eq_true_eq] at hb
    constructor <;> simp <;> omega
  · simp only [hb, if_false]
    exact ⟨h1, h2⟩

theorem navInv_reachable (s : NavigationState) (h : NavReachable s) : NavInv s := by
  induction h with
  | empty => exact navInv_initial
  | nav s p _ ih => exact navInv_navigateTo s p ih
  | back s _ ih => exact navInv_goBack s ih
  | fwd s _ ih => exact navInv_goForward s ih
  | init p => constructor <;> simp [initializeNav]
  | clr => constructor <;> simp [clearNav]

theorem goBack_none_iff (s : NavigationState) :
    ((goBack s).1 = none ∧ (goBack s).2 = s) ↔ canGoBack s = false := by
  unfold goBack
  by_cases hb : canGoBack s
  · simp [hb]
  · simp [hb]

theorem goForward_none_iff (s : NavigationState) :
    ((goForward s).1 = none ∧ (goForward s).2 = s) ↔ canGoForward s = false := by
  unfold goForward
  by_cases hb : canGoForward s
  · simp [hb]
  · simp [hb]

theorem navigateTo_currentPath (s : NavigationState) :
    navigateTo s (currentPath s) = s := by
  unfold navigateTo
  simp

theorem canGoForward_navigateTo (s : NavigationState) (p : String)
    (hp : p ≠ currentPath s) : canGoForward (navigateTo s p) = false := by
  unfold navigateTo
  rw [if_neg (fun h => hp h.symm)]
  unfold canGoForward
  simp

/-- C10: starting from the empty state, after every sequence of navigation
operations the current index stays within [-1, history.length - 1]; goBack
and goForward return null and leave the state unchanged exactly when
canGoBack respectively canGoForward is false; navigateTo with the current
path is a no-op; and navigateTo with a new path truncates the forward
history, so canGoForward is false afterwards. -/
theorem navigation_invariant (s : NavigationState) (h : NavReachable s) :
    (-1 ≤ s.currentIndex ∧ s.currentIndex ≤ (s.history.length : Int) - 1) ∧
    (((goBack s).1 = none ∧ (goBack s).2 = s) ↔ canGoBack s = false) ∧
    (((goForward s).1 = none ∧ (goForward s).2 = s) ↔ canGoForward s = false) ∧
    navigateTo s (currentPath s) = s ∧
    (∀ p, p ≠ currentPath s → canGoForward (navigateTo s p) = false) :=
  ⟨navInv_reachable s h, goBack_none_iff s, goForward_none_iff s,
    navigateTo_currentPath s, fun p hp => canGoForward_navigateTo s p hp⟩

/-- C10 witness: the navigation properties instantiated at the initial state. -/
theorem navigation_invariant_witness :
    (-1 ≤ initialNavState.currentIndex ∧
      initialNavState.currentIndex ≤ (initialNavState.history.length : Int) - 1) ∧
    (((goBack initialNavState).1 = none ∧ (goBack initialNavState).2 = initialNavState) ↔
      canGoBack initialNavState = false) ∧
    (((goForward initialNavState).1 = none ∧
        (goForward initialNavState).2 = initialNavState) ↔
      canGoForward initialNavState = false) ∧
    navigateTo initialNavState (currentPath initialNavState) = initialNavState ∧
    (∀ p, p ≠ currentPath initialNavState →
      canGoForward (navigateTo initialNavState p) = false) :=
  navigation_invariant initialNavState NavReachable.empty

/-! ## File size formatting (src/utils/formatters.ts, src/utils/constants.ts) -/

/-- The unit array from constants.ts. -/
def FILE_SIZE_UNITS : List String := ["B", "KB", "MB", "GB", "TB"]

/-- The unit index computed by formatFileSize for a nonzero argument:
Math.floor(Math.log(bytes) / Math.log(1024)), modelled over the reals. -/
noncomputable def sizeUnitIndex (bytes : ℝ) : ℤ := ⌊Real.logb 1024 bytes⌋

/-- The unit suffix produced by formatFileSize: "B" for 0 bytes, otherwise
FILE_SIZE_UNITS indexed at sizeUnitIndex; none models the undefined value
JavaScript yields when the index leaves the array bounds. -/
noncomputable def formatFileSizeUnit (bytes : ℝ) : Option String :=
  if bytes = 0 then some "B"
  else if sizeUnitIndex bytes < 0 then none
  else FILE_SIZE_UNITS[(sizeUnitIndex bytes).toNat]?

theorem sizeUnitIndex_half : sizeUnitIndex (1 / 2 : ℝ) = -1 := by
  have hb : (1 : ℝ) < 1024 := by norm_num
  have hlt : Real.logb 1024 (1 / 2 : ℝ) < 0 :=
    Real.logb_neg hb (by norm_num) (by norm_num)
  have hge : (-1 : ℝ) ≤ Real.logb 1024 (1 / 2 : ℝ) := by
    have h1 : Real.logb 1024 ((1024 : ℝ)⁻¹) = -1 := by
      rw [Real.logb_inv, Real.logb_self_eq_one (by norm_num)]
    have h2 : Real.logb 1024 ((1024 : ℝ)⁻¹) ≤ Real.logb 1024 (1 / 2 : ℝ) :=
      Real.logb_le_logb_of_le hb (by norm_num) (by norm_num)
    linarith
  unfold sizeUnitIndex
  rw [Int.floor_eq_iff]
  constructor
  · exact_mod_cast hge
  · push_cast
    linarith

/-- C9 counterexample: the claim extends to every finite bytes >= 0, but at
bytes = 1/2 the computed unit index is -1, outside the bounds of
FILE_SIZE_UNITS, and the formatter yields the undefined unit rather than one
of B/KB/MB/GB/TB. -/
theorem formatFileSize_unit_counterexample :
    formatFileSizeUnit (1 / 2 : ℝ) = none ∧ sizeUnitIndex (1 / 2 : ℝ) = -1 := by
  constructor
  · unfold formatFileSizeUnit
    rw [if_neg (by norm_num), if_pos]
    rw [sizeUnitIndex_half]
    norm_num
  · exact sizeUnitIndex_half

theorem FILE_SIZE_UNITS_total (n : ℕ) (h : n ≤ 4) :
    ∃ u, FILE_SIZE_UNITS[n]? = some u ∧ u ∈ FILE_SIZE_UNITS := by
  interval_cases n <;> exact ⟨_, rfl, by decide⟩

/-- C9 (amended): formatFileSize returns the unit "B" at bytes = 0, and for
1 <= bytes < 1024^5 the computed unit index stays within 0..4, so the unit is
one of B, KB, MB, GB, TB. For 0 < bytes < 1 and for bytes >= 1024^5 the index
leaves the array bounds (see the counterexample). -/
theorem formatFileSize_unit_in_bounds (bytes : ℝ) (h1 : 1 ≤ bytes)
    (h2 : bytes < 1024 ^ 5) :
    formatFileSizeUnit 0 = some "B" ∧
    0 ≤ sizeUnitIndex bytes ∧ sizeUnitIndex bytes ≤ 4 ∧
    ∃ u, formatFileSizeUnit bytes = some u ∧ u ∈ FILE_SIZE_UNITS := by
  have hb : (1 : ℝ) < 1024 := by norm_num
  have hpos : (0 : ℝ) < bytes := by linarith
  have hlow : 0 ≤ sizeUnitIndex bytes := by
    unfold sizeUnitIndex
    exact Int.floor_nonneg.mpr (Real.logb_nonneg hb h1)
  have hhigh : sizeUnitIndex bytes ≤ 4 := by
    unfold sizeUnitIndex
    have hlog : Real.logb 1024 bytes < 5 := by
      rw [Real.logb_lt_iff_lt_rpow hb hpos]
      calc bytes < 1024 ^ 5 := h2
      _ = (1024 : ℝ) ^ ((5 : ℕ) : ℝ) := by rw [Real.rpow_natCast]
      _ = (1024 : ℝ) ^ (5 : ℝ) := by norm_num
    have : ⌊Real.logb 1024 bytes⌋ < 5 := Int.floor_lt.mpr (by exact_mod_cast hlog)
    omega
  refine ⟨by unfold formatFileSizeUnit; simp, hlow, hhigh, ?_⟩
  have hnat : (sizeUnitIndex bytes).toNat ≤ 4 := by omega
  obtain ⟨u, hu, humem⟩ := FILE_SIZE_UNITS_total (sizeUnitIndex bytes).toNat hnat
  refine ⟨u, ?_, humem⟩
  unfold formatFileSizeUnit
  rw [if_neg (by linarith), if_neg (by omega)]
  exact hu

/-- C9 witness: the amended statement applied at bytes = 2. -/
theorem formatFileSize_unit_in_bounds_witness :
    (1 : ℝ) ≤ 2 ∧ (2 : ℝ) < 1024 ^ 5 ∧
    (formatFileSizeUnit 0 = some "B" ∧
      0 ≤ sizeUnitIndex 2 ∧ sizeUnitIndex 2 ≤ 4 ∧
      ∃ u, formatFileSizeUnit 2 = some u ∧ u ∈ FILE_SIZE_UNITS) :=
  ⟨by norm_num, by norm_num,
    formatFileSize_unit_in_bounds 2 (by norm_num) (by norm_num)⟩

/-! ## Batch file deletion (delete_files service, src-tauri services, as
documented in the repository's API reference) -/

/-- The delete_files service loop: the filesystem is the list of existing
paths; each path is checked for existence and removed in turn, and the loop
returns the first failure as a single error string, leaving the remaining
paths unprocessed. The removal itself is modelled as erasing the path. -/
def delete_files (fs : List String) : List String → Option String × List String
  | [] => (none, fs)
  | p :: rest =>
    if p ∈ fs then delete_files (fs.erase p) rest
    else (some ("路径不存在: " ++ p), fs)

/-- C6 counterexample: with filesystem {"x", "y"} and request ["a", "x"],
the first path is missing, so delete_files aborts with a single error string
and never processes the valid path "x" — it returns no aggregate of
per-item outcomes and the one bad path blocks the rest. -/
theorem delete_files_aborts_counterexample :
    delete_files ["x", "y"] ["a", "x"] = (some ("路径不存在: " ++ "a"), ["x", "y"]) ∧
    "x" ∈ (delete_files ["x", "y"] ["a", "x"]).2 := by
  constructor
  · rfl
  · decide

/-- C6 (amended): delete_files processes the paths sequentially and stops at
the first failing path, returning that path's error as a single string; the
erasures already performed for the earlier paths persist (they are not
rolled back), and when every path exists in turn the whole list is erased
with no error. -/
theorem delete_files_abort_behavior (fs paths : List String) :
    ((delete_files fs paths).1 = none →
      (delete_files fs paths).2 = paths.foldl (fun s p => s.erase p) fs) ∧
    (∀ msg fs2, delete_files fs paths = (some msg, fs2) →
      ∃ pre bad post, paths = pre ++ bad :: post ∧
        fs2 = pre.foldl (fun s p => s.erase p) fs ∧
        bad ∉ fs2 ∧ msg = "路径不存在: " ++ bad) := by
  induction paths generalizing fs with
  | nil =>
    refine ⟨fun _ => rfl, fun msg fs2 h => ?_⟩
    simp [delete_files] at h
  | cons p rest ih =>
    constructor
    · intro h
      unfold delete_files at h ⊢
      by_cases hp : p ∈ fs
      · rw [if_pos hp] at h ⊢
        simpa using (ih (fs.erase p)).1 h
      · rw [if_neg hp] at h
        simp at h
    · intro msg fs2 h
      unfold delete_files at h
      by_cases hp : p ∈ fs
      · rw [if_pos hp] at h
        obtain ⟨pre, bad, post, h1, h2, h3, h4⟩ := (ih (fs.erase p)).2 msg fs2 h
        exact ⟨p :: pre, bad, post, by rw [h1, List.cons_append], by simpa using h2, h3, h4⟩
      · rw [if_neg hp] at h
        injection h with h1 h2
        injection h1 with h1
        refine ⟨[], p, rest, rfl, by rw [List.foldl_nil, ← h2], ?_, h1.symm⟩
        rw [← h2]
        exact hp

/-- C6 witness: the abort behavior applied to a concrete failing batch. -/
theorem delete_files_abort_behavior_witness :
    ∃ pre bad post, (["y", "a", "x"] : List String) = pre ++ bad :: post ∧
      (delete_files ["x", "y"] ["y", "a", "x"]).2 =
        pre.foldl (fun s p => s.erase p) ["x", "y"] ∧
      bad ∉ (delete_files ["x", "y"] ["y", "a", "x"]).2 ∧
      (delete_files ["x", "y"] ["y", "a", "x"]).1 = some ("路径不存在: " ++ bad) := by
  obtain ⟨pre, bad, post, h1, h2, h3, h4⟩ :=
    (delete_files_abort_behavior ["x", "y"] ["y", "a", "x"]).2
      ("路径不存在: " ++ "a") ["x"] (by rfl)
  exact ⟨pre, bad, post, h1, h2, h3, by rw [← h4]; rfl⟩

/-! ## Data model of the identity / tag / association store

The rows follow the migrations 0001_initial_schema.sql and
0003_sqlite_support.sql: files, tags and file_tags tables with SERIAL ids,
soft-delete timestamps and a float confidence (modelled as a rational).
Timestamps are modelled as natural numbers supplied by the caller. -/

/-- A row of the files table. -/
structure FileRecord where
  id : Nat
  current_path : String
  file_type : String
  file_size : Nat
  created_at : Nat
  updated_at : Nat
  deleted_at : Option Nat
deriving DecidableEq, Repr

/-- A row of the tags table. -/
structure TagRow where
  id : Nat
  name : String
  color : Option String
  font_color : Option String
  parent_id : Option Nat
  usage_count : Int
  created_at : Nat
  updated_at : Nat
  deleted_at : Option Nat
deriving DecidableEq, Repr

/-- A row of the file_tags association table. -/
structure FileTagRow where
  file_id : Nat
  tag_id : Nat
  confidence : Rat
  created_at : Nat
  updated_at : Nat
deriving DecidableEq, Repr

/-- The whole database: the three tables plus the next SERIAL values. -/
structure DB where
  files : List FileRecord
  tags : List TagRow
  file_tags : List FileTagRow
  nextFileId : Nat
  nextTagId : Nat
deriving DecidableEq, Repr

def emptyDB : DB := ⟨[], [], [], 1, 1⟩

/-- Whether a files row is non-deleted and sits at the given path. -/
def isActiveAt (p : String) (f : FileRecord) : Bool :=
  f.deleted_at.isNone && f.current_path == p

/-- findByPath: exact, non-deleted lookup. -/
def findByPath (db : DB) (p : String) : Option FileRecord :=
  db.files.find? (isActiveAt p)

/-- The active associations of a file id. -/
def fileAssocs (db : DB) (fid : Nat) : List FileTagRow :=
  db.file_tags.filter (fun a => a.file_id == fid)

/-- Modelled from the spec: moveRecord(oldPath, newPath) of the Identity
Store (the database step of cut_files / rename_file, whose service code is
not in the repository snapshot). If a record exists at oldPath its
current_path is rewritten to newPath in place — same row, same id — with
updated_at refreshed; if no record exists the call is a silent no-op. -/
def moveRecord (db : DB) (oldPath newPath : String) (now : Nat) : DB :=
  { db with
    files := db.files.map fun f =>
      if isActiveAt oldPath f then
        { f with current_path := newPath, updated_at := now }
      else f }

/-- Modelled from the spec: softDelete(path) of the Identity Store (the
database step of delete_files). Sets deleted_at on the matching record if
one exists; no-op otherwise. -/
def softDelete (db : DB) (p : String) (now : Nat) : DB :=
  { db with
    files := db.files.map fun f =>
      if isActiveAt p f then { f with deleted_at := some now } else f }

/-- Modelled from the spec: copyRecord(oldPath, newPath) of the Identity
Store (the database step of copy_files, whose service code is not in the
repository snapshot). If a record exists at oldPath and has at least one
association, a brand-new record is created at newPath, its associations are
deep-copied with confidence carried verbatim and fresh timestamps, and each
copied association increments the target tag's usage_count; otherwise
nothing happens. -/
def copyRecord (db : DB) (oldPath newPath : String) (now : Nat) :
    Option FileRecord × DB :=
  match findByPath db oldPath with
  | none => (none, db)
  | some f =>
    let as := fileAssocs db f.id
    if as.isEmpty then (none, db)
    else
      let nf : FileRecord :=
        { id := db.nextFileId, current_path := newPath, file_type := f.file_type,
          file_size := f.file_size, created_at := now, updated_at := now,
          deleted_at := none }
      let copied := as.map fun a =>
        { a with file_id := db.nextFileId, created_at := now, updated_at := now }
      (some nf,
        { db with
          files := db.files ++ [nf],
          file_tags := db.file_tags ++ copied,
          tags := db.tags.map fun t =>
            { t with usage_count := t.usage_count + (as.countP fun a => a.tag_id == t.id) },
          nextFileId := db.nextFileId + 1 })

/-- Whether the (fileId, tagId) pair already has an association row. -/
def hasAssoc (db : DB) (fid tid : Nat) : Bool :=
  db.file_tags.any fun a => a.file_id == fid && a.tag_id == tid

/-- Modelled from the spec: attach(fileId, tagId, confidence) of the
Association Store (the database step of add_tags_to_files, whose service
code is not in the repository snapshot). Idempotent: an already-present pair
is a no-op; on first attach the row is inserted and the tag's usage_count is
incremented by one. -/
def attach (db : DB) (fid tid : Nat) (conf : Rat) (now : Nat) : DB :=
  if hasAssoc db fid tid then db
  else
    { db with
      file_tags := db.file_tags ++ [⟨fid, tid, conf, now, now⟩],
      tags := db.tags.map fun t =>
        if t.id == tid then
          { t with usage_count := t.usage_count + 1, updated_at := now }
        else t }

/-- Modelled from the spec: createIfAbsent(path, type, size) of the Identity
Store. Returns the existing non-deleted record at the path unchanged, or
inserts a fresh one. -/
def createIfAbsent (db : DB) (p : String) (ft : String) (sz : Nat) (now : Nat) :
    FileRecord × DB :=
  match findByPath db p with
  | some f => (f, db)
  | none =>
    let nf : FileRecord := ⟨db.nextFileId, p, ft, sz, now, now, none⟩
    (nf, { db with files := db.files ++ [nf], nextFileId := db.nextFileId + 1 })

theorem isActiveAt_iff (p : String) (f : FileRecord) :
    isActiveAt p f = true ↔ f.deleted_at = none ∧ f.current_path = p := by
  simp [isActiveAt, Option.isNone_iff_eq_none]

theorem moveRecord_of_absent (db : DB) (p1 p2 : String) (now : Nat)
    (h : findByPath db p1 = none) : moveRecord db p1 p2 now = db := by
  unfold moveRecord
  unfold findByPath at h
  rw [List.find?_eq_none] at h
  have hmap : db.files.map (fun f =>
      if isActiveAt p1 f then { f with current_path := p2, updated_at := now } else f) =
      db.files.map id := by
    apply List.map_congr_left
    intro f hf
    rw [if_neg (by simpa using h f hf)]
    rfl
  rw [hmap, List.map_id]

theorem find?_map_moved (p1 p2 : String) (now : Nat) (l : List FileRecord)
    (fr : FileRecord) (hfind : l.find? (isActiveAt p1) = some fr)
    (hnew : ∀ g ∈ l, g.deleted_at = none → g.current_path ≠ p2) :
    (l.map (fun f =>
        if isActiveAt p1 f then { f with current_path := p2, updated_at := now }
        else f)).find? (isActiveAt p2) =
      some { fr with current_path := p2, updated_at := now } := by
  induction l with
  | nil => simp at hfind
  | cons f l ih =>
    by_cases hf : isActiveAt p1 f
    · rw [List.find?_cons_of_pos _ hf] at hfind
      injection hfind with hfr
      subst hfr
      rw [List.map_cons, if_pos hf]
      apply List.find?_cons_of_pos
      rw [isActiveAt_iff] at hf ⊢
      exact ⟨hf.1, rfl⟩
    · rw [List.find?_cons_of_neg _ hf] at hfind
      rw [List.map_cons, if_neg hf]
      rw [List.find?_cons_of_neg]
      · exact ih hfind (fun g hg => hnew g (List.mem_cons_of_mem f hg))
      · rw [isActiveAt_iff]
        rintro ⟨hdel, hpath⟩
        exact hnew f (List.mem_cons_self f l) hdel hpath

theorem find?_map_moved_old_gone (p1 p2 : String) (now : Nat)
    (l : List FileRecord) (hne : p1 ≠ p2) :
    (l.map (fun f =>
        if isActiveAt p1 f then { f with current_path := p2, updated_at := now }
        else f)).find? (isActiveAt p1) = none := by
  rw [List.find?_eq_none]
  intro x hx
  rw [List.mem_map] at hx
  obtain ⟨g, hg, rfl⟩ := hx
  by_cases hgp : isActiveAt p1 g
  · rw [if_pos hgp, isActiveAt_iff]
    rintro ⟨-, hpath⟩
    exact hne hpath.symm
  · rw [if_neg hgp]
    exact fun h => hgp h

/-- C1: moveRecord preserves tags. The association table is untouched by a
move; when no record exists at the old path the move is a silent no-op that
creates no record; and when a record exists at the old path, the record
found at the new path afterwards is the same row with the same id and the
same associations, and no record remains at the old path. -/
theorem moveRecord_preserves_tags (db : DB) (p1 p2 : String) (now : Nat) :
    (moveRecord db p1 p2 now).file_tags = db.file_tags ∧
    (findByPath db p1 = none → moveRecord db p1 p2 now = db) ∧
    (∀ fr, findByPath db p1 = some fr → p1 ≠ p2 →
      (∀ g ∈ db.files, g.deleted_at = none → g.current_path ≠ p2) →
      findByPath (moveRecord db p1 p2 now) p2 =
        some { fr with current_path := p2, updated_at := now } ∧
      fileAssocs (moveRecord db p1 p2 now) fr.id = fileAssocs db fr.id ∧
      findByPath (moveRecord db p1 p2 now) p1 = none) := by
  refine ⟨rfl, moveRecord_of_absent db p1 p2 now, ?_⟩
  intro fr hfind hne hnew
  refine ⟨find?_map_moved p1 p2 now db.files fr hfind hnew, rfl,
    find?_map_moved_old_gone p1 p2 now db.files hne⟩

/-- A one-record, one-association database used by the store witnesses. -/
def dbMoveW : DB :=
  { files := [⟨1, "a", "file", 0, 0, 0, none⟩],
    tags := [⟨7, "trip", none, none, none, 1, 0, 0, none⟩],
    file_tags := [⟨1, 7, 1, 0, 0⟩],
    nextFileId := 2, nextTagId := 8 }

/-- C1 witness: the move theorem applied to the empty database (untracked
no-op) and to a concrete tagged record. -/
theorem moveRecord_preserves_tags_witness :
    moveRecord emptyDB "a" "b" 5 = emptyDB ∧
    (findByPath (moveRecord dbMoveW "a" "b" 5) "b" =
        some ⟨1, "b", "file", 0, 0, 5, none⟩ ∧
      fileAssocs (moveRecord dbMoveW "a" "b" 5) 1 = fileAssocs dbMoveW 1 ∧
      findByPath (moveRecord dbMoveW "a" "b" 5) "a" = none) := by
  constructor
  · exact (moveRecord_preserves_tags emptyDB "a" "b" 5).2.1 rfl
  · exact (moveRecord_preserves_tags dbMoveW "a" "b" 5).2.2
      ⟨1, "a", "file", 0, 0, 0, none⟩ rfl (by decide) (by decide)

/-- C4: attach is idempotent. Starting from a database without the (f, t)
pair, attaching twice leaves exactly one association row for the pair, the
second call is a no-op on the whole database, and the tag's usage_count is
incremented exactly once in total. -/
theorem attach_idempotent (db : DB) (fid tid : Nat) (c1 c2 : Rat) (n1 n2 : Nat)
    (h : hasAssoc db fid tid = false) :
    attach (attach db fid tid c1 n1) fid tid c2 n2 = attach db fid tid c1 n1 ∧
    (attach (attach db fid tid c1 n1) fid tid c2 n2).file_tags.countP
      (fun a => a.file_id == fid && a.tag_id == tid) = 1 ∧
    (attach (attach db fid tid c1 n1) fid tid c2 n2).tags =
      db.tags.map (fun t =>
        if t.id == tid then
          { t with usage_count := t.usage_count + 1, updated_at := n1 }
        else t) := by
  have hdb1 : attach db fid tid c1 n1 =
      { db with
        file_tags := db.file_tags ++ [⟨fid, tid, c1, n1, n1⟩],
        tags := db.tags.map fun t =>
          if t.id == tid then
            { t with usage_count := t.usage_count + 1, updated_at := n1 }
          else t } := by
    unfold attach
    rw [h]
    rfl
  have hsecond : hasAssoc (attach db fid tid c1 n1) fid tid = true := by
    rw [hdb1]
    unfold hasAssoc
    simp
  have hnoop : attach (attach db fid tid c1 n1) fid tid c2 n2 =
      attach db fid tid c1 n1 := by
    set d1 := attach db fid tid c1 n1 with hd1
    unfold attach
    rw [hsecond]
    rfl
  refine ⟨hnoop, ?_, ?_⟩
  · rw [hnoop, hdb1]
    simp only [List.countP_append]
    have hzero : db.file_tags.countP (fun a => a.file_id == fid && a.tag_id == tid) = 0 := by
      rw [List.countP_eq_zero]
      intro a ha
      have := List.any_eq_false.mp h a ha
      simpa using this
    rw [hzero]
    simp [List.countP_cons]
  · rw [hnoop, hdb1]

/-- A database with one tagged-eligible file record, one tag, and no
associations, used by the attach witness. -/
def dbAttachW : DB :=
  { files := [⟨1, "a", "file", 0, 0, 0, none⟩],
    tags := [⟨7, "trip", none, none, none, 0, 0, 0, none⟩],
    file_tags := [],
    nextFileId := 2, nextTagId := 8 }

/-- C4 witness: the attach theorem applied at a concrete pair. -/
theorem attach_idempotent_witness :
    attach (attach dbAttachW 1 7 1 3 ) 1 7 1 4 = attach dbAttachW 1 7 1 3 ∧
    (attach (attach dbAttachW 1 7 1 3) 1 7 1 4).file_tags.countP
      (fun a => a.file_id == 1 && a.tag_id == 7) = 1 ∧
    (attach (attach dbAttachW 1 7 1 3) 1 7 1 4).tags =
      dbAttachW.tags.map (fun t =>
        if t.id == 7 then
          { t with usage_count := t.usage_count + 1, updated_at := 3 }
        else t) :=
  attach_idempotent dbAttachW 1 7 1 1 3 4 (by decide)

theorem countP_eq_one_of_pair (a1 a2 : FileTagRow) (t : Nat)
    (h1 : a1.tag_id = t) (hne : a2.tag_id ≠ t) :
    List.countP (fun a => a.tag_id == t) [a1, a2] = 1 := by
  simp [List.countP_cons, h1, hne]

/-- C2: copy duplicates only if tagged. Copying a file with zero
associations creates no new record and leaves the database unchanged;
copying a file whose record has exactly the associations {t1, t2} appends
one brand-new record at the destination path whose associations are exactly
{t1, t2} with confidence carried verbatim, and the usage_count of t1 and t2
each increase by exactly one while every other tag keeps its counter. -/
theorem copyRecord_duplicates_only_if_tagged (db : DB) (p1 p2 : String) (now : Nat) :
    (∀ fr, findByPath db p1 = some fr → fileAssocs db fr.id = [] →
      copyRecord db p1 p2 now = (none, db)) ∧
    (∀ fr a1 a2, findByPath db p1 = some fr →
      fileAssocs db fr.id = [a1, a2] → a1.tag_id ≠ a2.tag_id →
      (∀ a ∈ db.file_tags, a.file_id ≠ db.nextFileId) →
      ∃ nf, (copyRecord db p1 p2 now).1 = some nf ∧
        nf.id = db.nextFileId ∧ nf.current_path = p2 ∧ nf.deleted_at = none ∧
        (copyRecord db p1 p2 now).2.files = db.files ++ [nf] ∧
        fileAssocs (copyRecord db p1 p2 now).2 nf.id =
          [{ a1 with file_id := nf.id, created_at := now, updated_at := now },
           { a2 with file_id := nf.id, created_at := now, updated_at := now }] ∧
        (copyRecord db p1 p2 now).2.tags = db.tags.map (fun t =>
          if t.id = a1.tag_id ∨ t.id = a2.tag_id then
            { t with usage_count := t.usage_count + 1 }
          else t)) := by
  constructor
  · intro fr hfind hassoc
    simp only [copyRecord, hfind, hassoc, List.isEmpty_nil]
    rfl
  · intro fr a1 a2 hfind hassoc hne hfresh
    simp only [copyRecord, hfind, hassoc, List.isEmpty_cons]
    rw [if_neg (by simp)]
    refine ⟨_, rfl, rfl, rfl, rfl, rfl, ?_, ?_⟩
    · have hold : db.file_tags.filter (fun a => a.file_id == db.nextFileId) = [] := by
        rw [List.filter_eq_nil_iff]
        intro a ha
        simpa using hfresh a ha
      simp [fileAssocs, List.filter_append, hold]
    · apply List.map_congr_left
      intro t ht
      by_cases h1 : t.id = a1.tag_id
      · rw [if_pos (Or.inl h1)]
        have hone : List.countP (fun a => a.tag_id == t.id) [a1, a2] = 1 :=
          countP_eq_one_of_pair a1 a2 t.id h1.symm (fun hc => hne (by rw [hc, h1]))
        rw [hone]
        norm_num
      · by_cases h2 : t.id = a2.tag_id
        · rw [if_pos (Or.inr h2)]
          have hone : List.countP (fun a => a.tag_id == t.id) [a2, a1] = 1 :=
            countP_eq_one_of_pair a2 a1 t.id h2.symm (fun hc => h1 (by rw [← hc]))
          have hswap : List.countP (fun a => a.tag_id == t.id) [a1, a2] =
              List.countP (fun a => a.tag_id == t.id) [a2, a1] := by
            simp only [List.countP_cons, List.countP_nil]
            omega
          rw [hswap, hone]
          norm_num
        · rw [if_neg (by tauto)]
          have hzero : List.countP (fun a => a.tag_id == t.id) [a1, a2] = 0 := by
            rw [List.countP_eq_zero]
            intro a ha
            simp only [List.mem_cons, List.mem_singleton, List.not_mem_nil,
              or_false] at ha
            rcases ha with rfl | rfl
            · simp only [beq_iff_eq]
              exact fun hh => h1 hh.symm
            · simp only [beq_iff_eq]
              exact fun hh => h2 hh.symm
          rw [hzero]
          cases t
          simp

/-- A database whose single record carries two associations, used by the
copy witness. -/
def dbCopyW : DB :=
  { files := [⟨1, "a", "file", 0, 0, 0, none⟩],
    tags := [⟨7, "trip", none, none, none, 1, 0, 0, none⟩,
             ⟨8, "beach", none, none, none, 1, 0, 0, none⟩],
    file_tags := [⟨1, 7, 1, 0, 0⟩, ⟨1, 8, (1 : Rat) / 2, 0, 0⟩],
    nextFileId := 2, nextTagId := 9 }

/-- C2 witness: the copy theorem applied to the untagged and the
twice-tagged concrete databases. -/
theorem copyRecord_duplicates_only_if_tagged_witness :
    copyRecord dbAttachW "a" "b" 5 = (none, dbAttachW) ∧
    (∃ nf, (copyRecord dbCopyW "a" "b" 5).1 = some nf ∧
      nf.id = dbCopyW.nextFileId ∧ nf.current_path = "b" ∧ nf.deleted_at = none ∧
      (copyRecord dbCopyW "a" "b" 5).2.files = dbCopyW.files ++ [nf] ∧
      fileAssocs (copyRecord dbCopyW "a" "b" 5).2 nf.id =
        [{ (⟨1, 7, 1, 0, 0⟩ : FileTagRow) with file_id := nf.id, created_at := 5, updated_at := 5 },
         { (⟨1, 8, (1 : Rat) / 2, 0, 0⟩ : FileTagRow) with file_id := nf.id, created_at := 5, updated_at := 5 }] ∧
      (copyRecord dbCopyW "a" "b" 5).2.tags = dbCopyW.tags.map (fun t =>
        if t.id = 7 ∨ t.id = 8 then { t with usage_count := t.usage_count + 1 }
        else t)) := by
  constructor
  · exact (copyRecord_duplicates_only_if_tagged dbAttachW "a" "b" 5).1
      ⟨1, "a", "file", 0, 0, 0, none⟩ rfl rfl
  · exact (copyRecord_duplicates_only_if_tagged dbCopyW "a" "b" 5).2
      ⟨1, "a", "file", 0, 0, 0, none⟩ ⟨1, 7, 1, 0, 0⟩ ⟨1, 8, (1 : Rat) / 2, 0, 0⟩
      rfl rfl (by decide) (by decide)

/-! ## System model for the path-uniqueness invariant (C3)

The filesystem is the list of existing paths. Each command first performs
the filesystem mutation with the existence checks documented in the API
reference (source must exist, destination must not) and then the
corresponding database step; the per-path steps below are the loop bodies of
add_tags_to_files, cut_files, copy_files and delete_files. -/

/-- A filesystem (existing paths) together with the database. -/
structure SysState where
  fs : List String
  db : DB

/-- Modelled from the spec: the add_tags_to_files per-path step (its service
code is not in the repository snapshot). The path must exist; the file
record is created lazily and the tag attached. -/
def addTagToFile (s : SysState) (p : String) (tid : Nat) (now : Nat) : SysState :=
  if p ∈ s.fs then
    let r := createIfAbsent s.db p "file" 0 now
    { s with db := attach r.2 r.1.id tid 1 now }
  else s

/-- Modelled from the spec: the cut_files per-path step (its service code is
not in the repository snapshot). The source must exist and the destination
must not; the file is moved and the record's path rewritten. -/
def cutFile (s : SysState) (src dst : String) (now : Nat) : SysState :=
  if src ∈ s.fs ∧ dst ∉ s.fs then
    { fs := dst :: s.fs.erase src, db := moveRecord s.db src dst now }
  else s

/-- Modelled from the spec: the copy_files per-path step (its service code
is not in the repository snapshot). The source must exist and the
destination must not; the file is copied and the record deep-copied when it
has associations. -/
def copyFile (s : SysState) (src dst : String) (now : Nat) : SysState :=
  if src ∈ s.fs ∧ dst ∉ s.fs then
    { fs := dst :: s.fs, db := (copyRecord s.db src dst now).2 }
  else s

/-- Modelled from the spec: the delete_files per-path step (its service code
is not in the repository snapshot). The path must exist; the file is removed
and the record soft-deleted. -/
def deleteFile (s : SysState) (p : String) (now : Nat) : SysState :=
  if p ∈ s.fs then { fs := s.fs.erase p, db := softDelete s.db p now } else s

/-- System states reachable from an arbitrary filesystem and the empty
database through the application's own operations. -/
inductive SysReachable : SysState → Prop
  | start (fs0 : List String) : SysReachable ⟨fs0, emptyDB⟩
  | tag (s : SysState) (p : String) (tid now : Nat) :
      SysReachable s → SysReachable (addTagToFile s p tid now)
  | cut (s : SysState) (src dst : String) (now : Nat) :
      SysReachable s → SysReachable (cutFile s src dst now)
  | copy (s : SysState) (src dst : String) (now : Nat) :
      SysReachable s → SysReachable (copyFile s src dst now)
  | del (s : SysState) (p : String) (now : Nat) :
      SysReachable s → SysReachable (deleteFile s p now)

/-- Every non-deleted record points at an existing filesystem path. -/
def Tracked (s : SysState) : Prop :=
  ∀ f ∈ s.db.files, f.deleted_at = none → f.current_path ∈ s.fs

/-- No two non-deleted records share a current_path. -/
def PathUnique (db : DB) : Prop :=
  db.files.Pairwise fun a b =>
    a.deleted_at = none → b.deleted_at = none → a.current_path ≠ b.current_path

def SysInv (s : SysState) : Prop := Tracked s ∧ PathUnique s.db

theorem attach_files_eq (db : DB) (fid tid : Nat) (c : Rat) (n : Nat) :
    (attach db fid tid c n).files = db.files := by
  unfold attach
  split <;> rfl

theorem sysInv_addTagToFile (s : SysState) (p : String) (tid now : Nat)
    (h : SysInv s) : SysInv (addTagToFile s p tid now) := by
  obtain ⟨htr, hpu⟩ := h
  unfold addTagToFile
  split
  case isFalse => exact ⟨htr, hpu⟩
  case isTrue hp =>
    cases hfind : findByPath s.db p with
    | some f =>
      have hdb : (createIfAbsent s.db p "file" 0 now).2 = s.db := by
        unfold createIfAbsent
        rw [hfind]
      constructor
      · intro g hg hgdel
        rw [attach_files_eq, hdb] at hg
        exact htr g hg hgdel
      · show PathUnique _
        unfold PathUnique
        rw [attach_files_eq, hdb]
        exact hpu
    | none =>
      have hdb : (createIfAbsent s.db p "file" 0 now).2 =
          { s.db with
            files := s.db.files ++ [⟨s.db.nextFileId, p, "file", 0, now, now, none⟩],
            nextFileId := s.db.nextFileId + 1 } := by
        unfold createIfAbsent
        rw [hfind]
      have habsent : ∀ g ∈ s.db.files, ¬ isActiveAt p g = true := by
        intro g hg
        unfold findByPath at hfind
        exact List.find?_eq_none.mp hfind g hg
      constructor
      · intro g hg hgdel
        rw [attach_files_eq, hdb] at hg
        simp only [List.mem_append, List.mem_singleton] at hg
        rcases hg with hg | rfl
        · exact htr g hg hgdel
        · exact hp
      · show PathUnique _
        unfold PathUnique
        rw [attach_files_eq, hdb]
        rw [List.pairwise_append]
        refine ⟨hpu, by simp, ?_⟩
        intro a ha b hb hadel hbdel
        simp only [List.mem_singleton] at hb
        subst hb
        intro hpath
        exact habsent a ha ((isActiveAt_iff p a).mpr ⟨hadel, hpath⟩)

theorem sysInv_cutFile (s : SysState) (src dst : String) (now : Nat)
    (h : SysInv s) : SysInv (cutFile s src dst now) := by
  obtain ⟨htr, hpu⟩ := h
  unfold cutFile
  split
  case isFalse => exact ⟨htr, hpu⟩
  case isTrue hg =>
    obtain ⟨hsrc, hdst⟩ := hg
    constructor
    · intro f hf hfdel
      unfold moveRecord at hf
      simp only [List.mem_map] at hf
      obtain ⟨g, hg2, rfl⟩ := hf
      by_cases hga : isActiveAt src g
      · rw [if_pos hga]
        exact List.mem_cons_self _ _
      · rw [if_neg hga] at hfdel ⊢
        have hmem : g.current_path ∈ s.fs := htr g hg2 hfdel
        have hne : g.current_path ≠ src := by
          intro he
          exact hga ((isActiveAt_iff src g).mpr ⟨hfdel, he⟩)
        exact List.mem_cons_of_mem _ ((List.mem_erase_of_ne hne).mpr hmem)
    · show PathUnique _
      unfold PathUnique moveRecord
      rw [List.pairwise_map]
      apply List.Pairwise.imp_of_mem ?_ hpu
      intro a b ha hb hrel
      by_cases hax : isActiveAt src a <;> by_cases hbx : isActiveAt src b
      · obtain ⟨ha1, ha2⟩ := (isActiveAt_iff src a).mp hax
        obtain ⟨hb1, hb2⟩ := (isActiveAt_iff src b).mp hbx
        exact absurd (ha2.trans hb2.symm) (hrel ha1 hb1)
      · rw [if_pos hax, if_neg hbx]
        intro _ hbdel hpath
        have hbp : b.current_path = dst := by simpa using hpath.symm
        exact hdst (hbp ▸ htr b hb hbdel)
      · rw [if_neg hax, if_pos hbx]
        intro hadel _ hpath
        have hap : a.current_path = dst := by simpa using hpath
        exact hdst (hap ▸ htr a ha hadel)
      · rw [if_neg hax, if_neg hbx]
        exact hrel

theorem copyRecord_files_cases (db : DB) (p q : String) (now : Nat) :
    (copyRecord db p q now).2.files = db.files ∨
    ∃ nf : FileRecord, nf.current_path = q ∧ nf.deleted_at = none ∧
      (copyRecord db p q now).2.files = db.files ++ [nf] := by
  unfold copyRecord
  cases hfind : findByPath db p with
  | none => left; rfl
  | some f =>
    dsimp only
    by_cases he : (fileAssocs db f.id).isEmpty
    · rw [if_pos he]
      left
      rfl
    · rw [if_neg he]
      right
      exact ⟨_, rfl, rfl, rfl⟩

theorem sysInv_copyFile (s : SysState) (src dst : String) (now : Nat)
    (h : SysInv s) : SysInv (copyFile s src dst now) := by
  obtain ⟨htr, hpu⟩ := h
  unfold copyFile
  split
  case isFalse => exact ⟨htr, hpu⟩
  case isTrue hg =>
    obtain ⟨hsrc, hdst⟩ := hg
    rcases copyRecord_files_cases s.db src dst now with hsame | ⟨nf, hnfp, hnfd, happ⟩
    · constructor
      · intro f hf hfdel
        rw [hsame] at hf
        exact List.mem_cons_of_mem _ (htr f hf hfdel)
      · show PathUnique _
        unfold PathUnique
        rw [hsame]
        exact hpu
    · constructor
      · intro f hf hfdel
        rw [happ] at hf
        simp only [List.mem_append, List.mem_singleton] at hf
        rcases hf with hf | rfl
        · exact List.mem_cons_of_mem _ (htr f hf hfdel)
        · rw [hnfp]
          exact List.mem_cons_self _ _
      · show PathUnique _
        unfold PathUnique
        rw [happ, List.pairwise_append]
        refine ⟨hpu, by simp, ?_⟩
        intro a ha b hb hadel hbdel
        simp only [List.mem_singleton] at hb
        subst hb
        rw [hnfp]
        intro hpath
        exact hdst (hpath ▸ htr a ha hadel)

theorem sysInv_deleteFile (s : SysState) (p : String) (now : Nat)
    (h : SysInv s) : SysInv (deleteFile s p now) := by
  obtain ⟨htr, hpu⟩ := h
  unfold deleteFile
  split
  case isFalse => exact ⟨htr, hpu⟩
  case isTrue hp =>
    constructor
    · intro f hf hfdel
      unfold softDelete at hf
      simp only [List.mem_map] at hf
      obtain ⟨g, hg2, rfl⟩ := hf
      by_cases hga : isActiveAt p g
      · rw [if_pos hga] at hfdel
        simp at hfdel
      · rw [if_neg hga] at hfdel ⊢
        have hmem : g.current_path ∈ s.fs := htr g hg2 hfdel
        have hne : g.current_path ≠ p := by
          intro he
          exact hga ((isActiveAt_iff p g).mpr ⟨hfdel, he⟩)
        exact (List.mem_erase_of_ne hne).mpr hmem
    · show PathUnique _
      unfold PathUnique softDelete
      rw [List.pairwise_map]
      apply List.Pairwise.imp_of_mem ?_ hpu
      intro a b ha hb hrel
      by_cases hax : isActiveAt p a
      · rw [if_pos hax]
        intro hadel
        simp at hadel
      · rw [if_neg hax]
        by_cases hbx : isActiveAt p b
        · rw [if_pos hbx]
          intro _ hbdel
          simp at hbdel
        · rw [if_neg hbx]
          exact hrel

theorem sysInv_reachable (s : SysState) (h : SysReachable s) : SysInv s := by
  induction h with
  | start fs0 =>
    constructor
    · intro f hf
      simp [emptyDB] at hf
    · show PathUnique emptyDB
      unfold PathUnique emptyDB
      simp
  | tag s p tid now _ ih => exact sysInv_addTagToFile s p tid now ih
  | cut s src dst now _ ih => exact sysInv_cutFile s src dst now ih
  | copy s src dst now _ ih => exact sysInv_copyFile s src dst now ih
  | del s p now _ ih => exact sysInv_deleteFile s p now ih

theorem countP_le_one_of_pairwise {α : Type} (l : List α) (pred : α → Bool)
    (h : l.Pairwise fun a b => pred a = true → pred b = true → False) :
    l.countP pred ≤ 1 := by
  induction l with
  | nil => simp
  | cons a l ih =>
    rw [List.pairwise_cons] at h
    obtain ⟨h1, h2⟩ := h
    rw [List.countP_cons]
    by_cases hpa : pred a = true
    · have hz : l.countP pred = 0 := by
        rw [List.countP_eq_zero]
        intro b hb hpb
        exact h1 b hb hpa hpb
      rw [hz, hpa]
      simp
    · rw [if_neg hpa]
      have := ih h2
      omega

/-- C3: in every reachable system state at most one non-deleted files row
has a given current_path; the reachable states are closed under the
operations that insert or rewrite file paths (add_tags_to_files, cut_files,
copy_files) as well as delete_files, so each of them preserves the
uniqueness. -/
theorem current_path_unique_of_reachable (s : SysState) (h : SysReachable s)
    (p : String) :
    s.db.files.countP (fun f => f.deleted_at.isNone && f.current_path == p) ≤ 1 := by
  have hpu : PathUnique s.db := (sysInv_reachable s h).2
  apply countP_le_one_of_pairwise
  apply List.Pairwise.imp_of_mem ?_ hpu
  intro a b _ _ hrel hpa hpb
  have ha := (isActiveAt_iff p a).mp hpa
  have hb := (isActiveAt_iff p b).mp hpb
  exact hrel ha.1 hb.1 (ha.2.trans hb.2.symm)

/-- C3 witness: uniqueness evaluated on the reachable state obtained by
tagging one path and cutting it elsewhere. -/
theorem current_path_unique_of_reachable_witness :
    (cutFile (addTagToFile ⟨["a"], emptyDB⟩ "a" 7 1) "a" "b" 2).db.files.countP
      (fun f => f.deleted_at.isNone && f.current_path == "b") ≤ 1 :=
  current_path_unique_of_reachable _
    (SysReachable.cut _ "a" "b" 2
      (SysReachable.tag _ "a" 7 1 (SysReachable.start ["a"]))) "b"

/-! ## Tag store (create_tag, modify_tag, search_tags) -/

/-- The error taxonomy of the tag store. -/
inductive TagError where
  | NotFound
  | DuplicateTag
  | EmptyName
  | CycleDetected
deriving DecidableEq, Repr

/-- Whether a tag name is blank after trimming: every character is
whitespace. -/
def isBlankName (s : String) : Bool := s.data.all Char.isWhitespace

/-- Whether a non-deleted tag other than excludeId already carries the given
(name, parent) pair. -/
def dupTagExists (db : DB) (name : String) (parent : Option Nat)
    (excludeId : Option Nat) : Bool :=
  db.tags.any fun t =>
    t.deleted_at.isNone && t.name == name && t.parent_id == parent &&
      (match excludeId with
       | some i => !(t.id == i)
       | none => true)

/-- Modelled from the spec: create(name, parentId) of the Tag Store (the
create_tag service code is not in the repository snapshot). Fails with
EmptyName when the trimmed name is blank, with DuplicateTag when the
(name, parentId) pair already exists among non-deleted tags; otherwise
inserts a fresh tag with the schema's default colors and a zero counter. -/
def create_tag (db : DB) (name : String) (parent : Option Nat) (now : Nat) :
    Except TagError (TagRow × DB) :=
  if isBlankName name then .error .EmptyName
  else if dupTagExists db name parent none then .error .DuplicateTag
  else
    let t : TagRow :=
      ⟨db.nextTagId, name, some "#FFFF00", some "#000000", parent, 0, now, now, none⟩
    .ok (t, { db with tags := db.tags ++ [t], nextTagId := db.nextTagId + 1 })

/-- The parent link of a non-deleted tag, if any. -/
def parentOf (db : DB) (i : Nat) : Option Nat :=
  match db.tags.find? (fun t => t.id == i && t.deleted_at.isNone) with
  | some t => t.parent_id
  | none => none

/-- The fuel-bounded ancestor walk: does climbing parent links from cur
reach target? -/
def reachesUp (db : DB) : Nat → Nat → Nat → Bool
  | 0, _, _ => false
  | fuel + 1, target, cur =>
    if cur == target then true
    else
      match parentOf db cur with
      | some p => reachesUp db fuel target p
      | none => false

/-- The cycle check of modify_tag: the requested parent is the tag itself or
one of its descendants, detected by an ancestor walk bounded by the total
tag count. -/
def wouldCycle (db : DB) (id newParent : Nat) : Bool :=
  reachesUp db (db.tags.length + 1) id newParent

/-- Climbing exactly k parent links from x. -/
def ancestorChain (db : DB) : Nat → Nat → Option Nat
  | 0, x => some x
  | k + 1, x =>
    match parentOf db x with
    | some p => ancestorChain db k p
    | none => none

/-- Whether the tri-state parent argument requests a cyclic reparent. -/
def cycleRequested (db : DB) (id : Nat) (parent : Option (Option Nat)) : Bool :=
  match parent with
  | some (some p) => wouldCycle db id p
  | _ => false

/-- The row a successful modify_tag writes back: tri-state fields resolved
against the existing row, updated_at refreshed. -/
def modifiedRow (t : TagRow) (name : Option String)
    (color font_color : Option (Option String)) (parent : Option (Option Nat))
    (now : Nat) : TagRow :=
  { t with
    name := name.getD t.name,
    color := color.getD t.color,
    font_color := font_color.getD t.font_color,
    parent_id := parent.getD t.parent_id,
    updated_at := now }

/-- Modelled from the spec: modify(id, name?, color?, fontColor?, parentId?)
of the Tag Store (the modify_tag service code is not in the repository
snapshot). Tri-state fields: none leaves a field unchanged, some none clears
it, some (some v) sets it. Fails with NotFound when id has no non-deleted
row; with CycleDetected when the requested parent is the tag itself or one
of its descendants (ancestor walk before committing); with EmptyName or
DuplicateTag on name violations; otherwise commits the update in place. -/
def modify_tag (db : DB) (id : Nat) (name : Option String)
    (color font_color : Option (Option String)) (parent : Option (Option Nat))
    (now : Nat) : Except TagError (TagRow × DB) :=
  match db.tags.find? (fun t => t.id == id && t.deleted_at.isNone) with
  | none => .error .NotFound
  | some t =>
    if cycleRequested db id parent then .error .CycleDetected
    else if isBlankName (name.getD t.name) then .error .EmptyName
    else if dupTagExists db (name.getD t.name) (parent.getD t.parent_id) (some id) then
      .error .DuplicateTag
    else
      .ok (modifiedRow t name color font_color parent now,
        { db with
          tags := db.tags.map fun u =>
            if u.id == id && u.deleted_at.isNone then
              modifiedRow t name color font_color parent now
            else u })

theorem reachesUp_of_chain (db : DB) (id : Nat) :
    ∀ k fuel p, k < fuel → ancestorChain db k p = some id →
      reachesUp db fuel id p = true := by
  intro k
  induction k with
  | zero =>
    intro fuel p hk hchain
    cases fuel with
    | zero => omega
    | succ f =>
      unfold ancestorChain at hchain
      injection hchain with hchain
      unfold reachesUp
      rw [if_pos (by simp [hchain])]
  | succ k ih =>
    intro fuel p hk hchain
    cases fuel with
    | zero => omega
    | succ f =>
      unfold ancestorChain at hchain
      cases hpar : parentOf db p with
      | none => rw [hpar] at hchain; cases hchain
      | some q =>
        rw [hpar] at hchain
        unfold reachesUp
        by_cases hpq : p == id
        · rw [if_pos hpq]
        · rw [if_neg hpq, hpar]
          exact ih f q (by omega) hchain

theorem wouldCycle_self (db : DB) (id : Nat) : wouldCycle db id id = true := by
  unfold wouldCycle reachesUp
  rw [if_pos (by simp)]

/-- C7: modify_tag fails with NotFound when the id has no non-deleted tag
row, and fails with CycleDetected — committing nothing — when the requested
parentId is the tag's own id or a descendant of it (a node from which the
parent chain reaches the tag in at most as many steps as there are tags). -/
theorem modify_tag_notfound_cycle (db : DB) (id : Nat) (name : Option String)
    (color font_color : Option (Option String)) (parent : Option (Option Nat))
    (now : Nat) :
    (db.tags.find? (fun t => t.id == id && t.deleted_at.isNone) = none →
      modify_tag db id name color font_color parent now = .error .NotFound) ∧
    (∀ t, db.tags.find? (fun t => t.id == id && t.deleted_at.isNone) = some t →
      ∀ p, parent = some (some p) →
      (p = id ∨ ∃ k, k ≤ db.tags.length ∧ ancestorChain db k p = some id) →
      modify_tag db id name color font_color parent now = .error .CycleDetected) := by
  constructor
  · intro hfind
    simp only [modify_tag, hfind]
  · intro t hfind p hp hdesc
    subst hp
    have hcycle : wouldCycle db id p = true := by
      rcases hdesc with rfl | ⟨k, hk, hchain⟩
      · exact wouldCycle_self db p
      · exact reachesUp_of_chain db id k (db.tags.length + 1) p (by omega) hchain
    have hcycle2 : cycleRequested db id (some (some p)) = true := by
      simpa [cycleRequested] using hcycle
    simp only [modify_tag, hfind]
    rw [if_pos hcycle2]

/-- A two-tag database where tag 2 is a child of tag 1, used by the
modify_tag witness. -/
def dbTagTreeW : DB :=
  { files := [], file_tags := [],
    tags := [⟨1, "root", none, none, none, 0, 0, 0, none⟩,
             ⟨2, "child", none, none, some 1, 0, 0, 0, none⟩],
    nextFileId := 1, nextTagId := 3 }

/-- C7 witness: modifying a missing id yields NotFound, and reparenting tag
1 under its descendant tag 2 yields CycleDetected. -/
theorem modify_tag_notfound_cycle_witness :
    modify_tag emptyDB 5 none none none none 9 = .error .NotFound ∧
    modify_tag dbTagTreeW 1 none none none (some (some 2)) 9 =
      .error .CycleDetected := by
  constructor
  · exact (modify_tag_notfound_cycle emptyDB 5 none none none none 9).1 rfl
  · exact (modify_tag_notfound_cycle dbTagTreeW 1 none none none
      (some (some 2)) 9).2 ⟨1, "root", none, none, none, 0, 0, 0, none⟩ rfl 2 rfl
      (Or.inr ⟨1, by decide, by decide⟩)

/-! ## Tag-name uniqueness invariant (C5) -/

/-- Every tag id is below the next SERIAL value. -/
def TagIdBound (db : DB) : Prop := ∀ t ∈ db.tags, t.id < db.nextTagId

/-- Tag ids are pairwise distinct. -/
def TagIdUnique (db : DB) : Prop := db.tags.Pairwise fun a b => a.id ≠ b.id

/-- No two non-deleted tags share a (name, parent_id) pair. -/
def TagNameUnique (db : DB) : Prop :=
  db.tags.Pairwise fun a b => a.deleted_at = none → b.deleted_at = none →
    ¬(a.name = b.name ∧ a.parent_id = b.parent_id)

def TagInv (db : DB) : Prop := TagIdBound db ∧ TagIdUnique db ∧ TagNameUnique db

/-- Databases reachable from the empty database through the operations that
touch the tags table. -/
inductive TagReachable : DB → Prop
  | empty : TagReachable emptyDB
  | create (db : DB) (name : String) (parent : Option Nat) (now : Nat)
      (t : TagRow) (db2 : DB) : TagReachable db →
      create_tag db name parent now = .ok (t, db2) → TagReachable db2
  | modify (db : DB) (id : Nat) (name : Option String)
      (color fc : Option (Option String)) (parent : Option (Option Nat))
      (now : Nat) (t : TagRow) (db2 : DB) : TagReachable db →
      modify_tag db id name color fc parent now = .ok (t, db2) → TagReachable db2
  | att (db : DB) (fid tid : Nat) (conf : Rat) (now : Nat) :
      TagReachable db → TagReachable (attach db fid tid conf now)
  | copyR (db : DB) (p q : String) (now : Nat) :
      TagReachable db → TagReachable (copyRecord db p q now).2

theorem create_tag_ok_inv (db : DB) (name : String) (parent : Option Nat)
    (now : Nat) (t : TagRow) (db2 : DB)
    (h : create_tag db name parent now = .ok (t, db2)) :
    dupTagExists db name parent none = false ∧
    t = ⟨db.nextTagId, name, some "#FFFF00", some "#000000", parent, 0, now, now, none⟩ ∧
    db2 = { db with tags := db.tags ++ [t], nextTagId := db.nextTagId + 1 } := by
  unfold create_tag at h
  by_cases h1 : isBlankName name = true
  · rw [if_pos h1] at h
    cases h
  · rw [if_neg h1] at h
    by_cases h2 : dupTagExists db name parent none = true
    · rw [if_pos h2] at h
      cases h
    · rw [if_neg h2] at h
      injection h with h3
      injection h3 with h4 h5
      refine ⟨by simpa using h2, h4.symm, ?_⟩
      rw [← h5, h4]

theorem modify_tag_ok_inv (db : DB) (id : Nat) (name : Option String)
    (color fc : Option (Option String)) (parent : Option (Option Nat))
    (now : Nat) (t2 : TagRow) (db2 : DB)
    (h : modify_tag db id name color fc parent now = .ok (t2, db2)) :
    ∃ t, db.tags.find? (fun u => u.id == id && u.deleted_at.isNone) = some t ∧
      dupTagExists db (name.getD t.name) (parent.getD t.parent_id) (some id) = false ∧
      t2 = modifiedRow t name color fc parent now ∧
      db2 = { db with
        tags := db.tags.map fun u =>
          if u.id == id && u.deleted_at.isNone then t2 else u } := by
  unfold modify_tag at h
  cases hfind : db.tags.find? (fun u => u.id == id && u.deleted_at.isNone) with
  | none =>
    rw [hfind] at h
    cases h
  | some t =>
    rw [hfind] at h
    dsimp only at h
    refine ⟨t, rfl, ?_⟩
    by_cases hc : cycleRequested db id parent = true
    · rw [if_pos hc] at h
      cases h
    · rw [if_neg hc] at h
      by_cases hn : isBlankName (name.getD t.name) = true
      · rw [if_pos hn] at h
        cases h
      · rw [if_neg hn] at h
        by_cases hd : dupTagExists db (name.getD t.name) (parent.getD t.parent_id)
            (some id) = true
        · rw [if_pos hd] at h
          cases h
        · rw [if_neg hd] at h
          injection h with h3
          injection h3 with h4 h5
          refine ⟨by simpa using hd, h4.symm, ?_⟩
          rw [← h5, h4]

theorem dupTagExists_false_elim (db : DB) (name : String) (parent : Option Nat)
    (h : dupTagExists db name parent none = false) (a : TagRow) (ha : a ∈ db.tags)
    (hdel : a.deleted_at = none) (hn : a.name = name) (hp : a.parent_id = parent) :
    False := by
  apply List.any_eq_false.mp h a ha
  simp [hdel, hn, hp]

theorem dupTagExists_false_elim_ex (db : DB) (name : String) (parent : Option Nat)
    (id : Nat) (h : dupTagExists db name parent (some id) = false) (a : TagRow)
    (ha : a ∈ db.tags) (hdel : a.deleted_at = none) (hn : a.name = name)
    (hp : a.parent_id = parent) (hid : a.id ≠ id) : False := by
  apply List.any_eq_false.mp h a ha
  simp [hdel, hn, hp, hid]

/-- Maps that change neither id, deleted_at, name nor parent_id preserve the
tag invariant. -/
theorem tagInv_congr (db db2 : DB) (g : TagRow → TagRow)
    (htags : db2.tags = db.tags.map g)
    (hnext : db2.nextTagId = db.nextTagId)
    (hfields : ∀ u, (g u).id = u.id ∧ (g u).deleted_at = u.deleted_at ∧
      (g u).name = u.name ∧ (g u).parent_id = u.parent_id)
    (h : TagInv db) : TagInv db2 := by
  obtain ⟨hb, hiu, hnu⟩ := h
  refine ⟨?_, ?_, ?_⟩
  · intro u hu
    rw [htags, List.mem_map] at hu
    obtain ⟨v, hv, rfl⟩ := hu
    rw [hnext, (hfields v).1]
    exact hb v hv
  · unfold TagIdUnique
    rw [htags, List.pairwise_map]
    apply List.Pairwise.imp ?_ hiu
    intro a b hab
    rw [(hfields a).1, (hfields b).1]
    exact hab
  · unfold TagNameUnique
    rw [htags, List.pairwise_map]
    apply List.Pairwise.imp ?_ hnu
    intro a b hab
    rw [(hfields a).2.1, (hfields b).2.1, (hfields a).2.2.1, (hfields b).2.2.1,
      (hfields a).2.2.2, (hfields b).2.2.2]
    exact hab

theorem tagInv_attach (db : DB) (fid tid : Nat) (conf : Rat) (now : Nat)
    (h : TagInv db) : TagInv (attach db fid tid conf now) := by
  unfold attach
  split
  · exact h
  · refine tagInv_congr db _ (fun t =>
      if t.id == tid then { t with usage_count := t.usage_count + 1, updated_at := now }
      else t) rfl rfl ?_ h
    intro u
    dsimp only
    refine ⟨?_, ?_, ?_, ?_⟩ <;> split <;> rfl

theorem tagInv_copyRecord (db : DB) (p q : String) (now : Nat)
    (h : TagInv db) : TagInv (copyRecord db p q now).2 := by
  unfold copyRecord
  cases hfind : findByPath db p with
  | none => exact h
  | some f =>
    dsimp only
    by_cases he : (fileAssocs db f.id).isEmpty
    · rw [if_pos he]
      exact h
    · rw [if_neg he]
      refine tagInv_congr db _ (fun t =>
        { t with usage_count := t.usage_count +
            ((fileAssocs db f.id).countP fun a => a.tag_id == t.id) }) rfl rfl ?_ h
      intro u
      exact ⟨rfl, rfl, rfl, rfl⟩

theorem tagInv_create (db : DB) (name : String) (parent : Option Nat)
    (now : Nat) (t : TagRow) (db2 : DB)
    (hok : create_tag db name parent now = .ok (t, db2)) (h : TagInv db) :
    TagInv db2 := by
  obtain ⟨hdup, ht, hdb2⟩ := create_tag_ok_inv db name parent now t db2 hok
  obtain ⟨hb, hiu, hnu⟩ := h
  subst hdb2
  refine ⟨?_, ?_, ?_⟩
  · intro u hu
    simp only [List.mem_append, List.mem_singleton] at hu
    rcases hu with hu | rfl
    · exact Nat.lt_succ_of_lt (hb u hu)
    · rw [ht]
      exact Nat.lt_succ_self _
  · unfold TagIdUnique
    rw [List.pairwise_append]
    refine ⟨hiu, by simp, ?_⟩
    intro a ha b hb2
    simp only [List.mem_singleton] at hb2
    subst hb2
    rw [ht]
    exact Nat.ne_of_lt (hb a ha)
  · unfold TagNameUnique
    rw [List.pairwise_append]
    refine ⟨hnu, by simp, ?_⟩
    intro a ha b hb2 hadel _
    simp only [List.mem_singleton] at hb2
    subst hb2
    rw [ht]
    rintro ⟨hname, hparent⟩
    exact dupTagExists_false_elim db name parent hdup a ha hadel hname hparent

theorem tagInv_modify (db : DB) (id : Nat) (name : Option String)
    (color fc : Option (Option String)) (parent : Option (Option Nat))
    (now : Nat) (t2 : TagRow) (db2 : DB)
    (hok : modify_tag db id name color fc parent now = .ok (t2, db2))
    (h : TagInv db) : TagInv db2 := by
  obtain ⟨t, hfind, hdup, ht2, hdb2⟩ :=
    modify_tag_ok_inv db id name color fc parent now t2 db2 hok
  obtain ⟨hb, hiu, hnu⟩ := h
  have hpred : (t.id == id && t.deleted_at.isNone) = true := by
    simpa using List.find?_some hfind
  have htid : t.id = id := by
    simp only [Bool.and_eq_true, beq_iff_eq] at hpred
    exact hpred.1
  have htdel : t.deleted_at = none := by
    simp only [Bool.and_eq_true, Option.isNone_iff_eq_none] at hpred
    exact hpred.2
  have htmem : t ∈ db.tags := List.mem_of_find?_eq_some hfind
  have ht2id : t2.id = id := by rw [ht2]; exact htid
  have ht2del : t2.deleted_at = none := by rw [ht2]; exact htdel
  have hgid : ∀ u, ((if u.id == id && u.deleted_at.isNone then t2 else u) : TagRow).id
      = u.id := by
    intro u
    by_cases hu : (u.id == id && u.deleted_at.isNone) = true
    · rw [if_pos hu, ht2id]
      simp only [Bool.and_eq_true, beq_iff_eq] at hu
      exact hu.1.symm
    · rw [if_neg hu]
  have hgdel : ∀ u, ((if u.id == id && u.deleted_at.isNone then t2 else u) : TagRow).deleted_at
      = u.deleted_at := by
    intro u
    by_cases hu : (u.id == id && u.deleted_at.isNone) = true
    · rw [if_pos hu, ht2del]
      simp only [Bool.and_eq_true, Option.isNone_iff_eq_none] at hu
      exact hu.2.symm
    · rw [if_neg hu]
  subst hdb2
  refine ⟨?_, ?_, ?_⟩
  · intro u hu
    simp only [List.mem_map] at hu
    obtain ⟨v, hv, rfl⟩ := hu
    rw [hgid v]
    exact hb v hv
  · unfold TagIdUnique
    rw [List.pairwise_map]
    apply List.Pairwise.imp ?_ hiu
    intro a b hab
    rw [hgid a, hgid b]
    exact hab
  · unfold TagNameUnique
    rw [List.pairwise_map]
    apply List.Pairwise.imp_of_mem ?_ ((List.Pairwise.and hiu hnu))
    intro a b ha hb2 hab
    obtain ⟨habid, habname⟩ := hab
    by_cases hxa : (a.id == id && a.deleted_at.isNone) = true <;>
      by_cases hxb : (b.id == id && b.deleted_at.isNone) = true
    · exfalso
      simp only [Bool.and_eq_true, beq_iff_eq] at hxa hxb
      exact habid (hxa.1.trans hxb.1.symm)
    · rw [if_pos hxa, if_neg hxb]
      intro _ hbdel hcol
      simp only [Bool.and_eq_true, beq_iff_eq] at hxb
      have hbid : b.id ≠ id := by
        intro he
        exact hxb ⟨he, by simpa [Option.isNone_iff_eq_none] using hbdel⟩
      have ht2name : t2.name = name.getD t.name := by rw [ht2]; rfl
      have ht2par : t2.parent_id = parent.getD t.parent_id := by rw [ht2]; rfl
      exact dupTagExists_false_elim_ex db (name.getD t.name) (parent.getD t.parent_id)
        id hdup b hb2 hbdel (ht2name ▸ hcol.1.symm) (ht2par ▸ hcol.2.symm) hbid
    · rw [if_neg hxa, if_pos hxb]
      intro hadel _ hcol
      simp only [Bool.and_eq_true, beq_iff_eq] at hxa
      have haid : a.id ≠ id := by
        intro he
        exact hxa ⟨he, by simpa [Option.isNone_iff_eq_none] using hadel⟩
      have ht2name : t2.name = name.getD t.name := by rw [ht2]; rfl
      have ht2par : t2.parent_id = parent.getD t.parent_id := by rw [ht2]; rfl
      exact dupTagExists_false_elim_ex db (name.getD t.name) (parent.getD t.parent_id)
        id hdup a ha hadel (ht2name ▸ hcol.1) (ht2par ▸ hcol.2) haid
    · rw [if_neg hxa, if_neg hxb]
      exact habname

theorem tagInv_reachable (db : DB) (h : TagReachable db) : TagInv db := by
  induction h with
  | empty =>
    refine ⟨?_, ?_, ?_⟩
    · intro t ht
      simp [emptyDB] at ht
    · unfold TagIdUnique emptyDB
      simp
    · unfold TagNameUnique emptyDB
      simp
  | create db name parent now t db2 _ hok ih =>
    exact tagInv_create db name parent now t db2 hok ih
  | modify db id name color fc parent now t db2 _ hok ih =>
    exact tagInv_modify db id name color fc parent now t db2 hok ih
  | att db fid tid conf now _ ih => exact tagInv_attach db fid tid conf now ih
  | copyR db p q now _ ih => exact tagInv_copyRecord db p q now ih

/-- C5: tag name uniqueness is scoped per parent among non-deleted tags.
Creating a tag whose (name, parentId) pair already exists among non-deleted
tags fails with DuplicateTag; creating the same name under a different
parent (one not yet carrying that name) succeeds; and in every reachable
database at most one non-deleted tag carries a given (name, parent_id)
pair. -/
theorem tag_name_unique_per_parent (db : DB) (name : String) (p1 p2 : Option Nat)
    (now : Nat) :
    ((∃ t ∈ db.tags, t.deleted_at = none ∧ t.name = name ∧ t.parent_id = p1) →
      isBlankName name = false →
      create_tag db name p1 now = .error .DuplicateTag) ∧
    (isBlankName name = false →
      (∀ t ∈ db.tags, t.deleted_at = none → t.name = name → t.parent_id ≠ p2) →
      ∃ t db2, create_tag db name p2 now = .ok (t, db2)) ∧
    (TagReachable db → ∀ nm : String, ∀ pid : Option Nat,
      db.tags.countP
        (fun t => t.deleted_at.isNone && t.name == nm && t.parent_id == pid) ≤ 1) := by
  refine ⟨?_, ?_, ?_⟩
  · rintro ⟨t, ht, hdel, hn, hp⟩ hname
    unfold create_tag
    rw [if_neg (by simp [hname])]
    rw [if_pos]
    apply List.any_eq_true.mpr
    exact ⟨t, ht, by simp [hdel, hn, hp]⟩
  · intro hname habsent
    unfold create_tag
    rw [if_neg (by simp [hname])]
    rw [if_neg]
    · exact ⟨_, _, rfl⟩
    · intro hdup
      obtain ⟨t, ht, hpred⟩ := List.any_eq_true.mp hdup
      simp only [Bool.and_eq_true, Option.isNone_iff_eq_none, beq_iff_eq] at hpred
      exact habsent t ht hpred.1.1.1 hpred.1.1.2 hpred.1.2
  · intro hreach nm pid
    have hnu : TagNameUnique db := (tagInv_reachable db hreach).2.2
    apply countP_le_one_of_pairwise
    apply List.Pairwise.imp ?_ hnu
    intro a b hab hpa hpb
    simp only [Bool.and_eq_true, Option.isNone_iff_eq_none, beq_iff_eq] at hpa hpb
    exact hab hpa.1.1 hpb.1.1 ⟨hpa.1.2.trans hpb.1.2.symm, hpa.2.trans hpb.2.symm⟩

/-- The database reached by creating the root tag "trip" in the empty
database. -/
def dbTagW : DB :=
  { files := [], file_tags := [],
    tags := [⟨1, "trip", some "#FFFF00", some "#000000", none, 0, 0, 0, none⟩],
    nextFileId := 1, nextTagId := 2 }

theorem dbTagW_reachable : TagReachable dbTagW :=
  TagReachable.create emptyDB "trip" none 0
    ⟨1, "trip", some "#FFFF00", some "#000000", none, 0, 0, 0, none⟩ dbTagW
    TagReachable.empty (by rfl)

/-- C5 witness: duplicate root creation fails, the same name under parent 5
succeeds, and the reachable one-tag database satisfies the uniqueness
bound. -/
theorem tag_name_unique_per_parent_witness :
    create_tag dbTagW "trip" none 1 = .error .DuplicateTag ∧
    (∃ t db2, create_tag dbTagW "trip" (some 5) 1 = .ok (t, db2)) ∧
    dbTagW.tags.countP
      (fun t => t.deleted_at.isNone && t.name == "trip" && t.parent_id == none) ≤ 1 := by
  refine ⟨?_, ?_, ?_⟩
  · exact (tag_name_unique_per_parent dbTagW "trip" none (some 5) 1).1
      ⟨⟨1, "trip", some "#FFFF00", some "#000000", none, 0, 0, 0, none⟩,
        by decide, rfl, rfl, rfl⟩ (by decide)
  · exact (tag_name_unique_per_parent dbTagW "trip" none (some 5) 1).2.1
      (by decide) (by decide)
  · exact (tag_name_unique_per_parent dbTagW "trip" none (some 5) 1).2.2
      dbTagW_reachable "trip" none

/-! ## Tag search (C8) -/

/-- Whether the haystack starts with the pattern. -/
def startsWithChars : List Char → List Char → Bool
  | _, [] => true
  | [], _ :: _ => false
  | a :: as, b :: bs => a == b && startsWithChars as bs

/-- Whether the pattern occurs contiguously in the haystack (the LIKE
percent-match of the documented SQL query). -/
def containsChars : List Char → List Char → Bool
  | [], pat => pat.isEmpty
  | l@(_ :: rest), pat => startsWithChars l pat || containsChars rest pat

/-- Case-insensitive substring match of the keyword against a tag name,
restricted to non-deleted tags. -/
def matchesKeyword (kw : String) (t : TagRow) : Bool :=
  t.deleted_at.isNone &&
    containsChars (t.name.data.map Char.toLower) (kw.data.map Char.toLower)

/-- The documented ordering: usage_count descending, then id ascending. -/
def tagLE (a b : TagRow) : Bool :=
  decide (b.usage_count < a.usage_count) ||
    decide (a.usage_count = b.usage_count ∧ a.id ≤ b.id)

/-- Modelled from the spec: search(keyword, limit) of the Tag Store (the
search_tags service code is not in the repository snapshot). An empty
keyword yields the empty list; otherwise the non-deleted tags whose name
contains the keyword case-insensitively are returned ordered by usage_count
descending then id ascending, truncated to the limit. -/
def search_tags (db : DB) (keyword : String) (limit : Nat) : List TagRow :=
  if keyword = "" then []
  else ((db.tags.filter (matchesKeyword keyword)).mergeSort tagLE).take limit

theorem tagLE_trans (a b c : TagRow) : tagLE a b → tagLE b c → tagLE a c := by
  simp only [tagLE, Bool.or_eq_true, decide_eq_true_eq]
  intro h1 h2
  omega

theorem tagLE_total (a b : TagRow) : tagLE a b || tagLE b a := by
  simp only [tagLE, Bool.or_eq_true, decide_eq_true_eq]
  omega

/-- C8: tag search. The empty keyword yields the empty list; every returned
tag is a non-deleted tag of the database whose lowercased name contains the
lowercased keyword; the result is sorted by usage_count descending with ties
broken by id ascending; at most limit tags are returned; and when the limit
accommodates them, every matching tag appears. -/
theorem search_tags_spec (db : DB) (kw : String) (limit : Nat) :
    search_tags db "" limit = [] ∧
    (search_tags db kw limit).Pairwise (fun a b =>
      b.usage_count < a.usage_count ∨
        (a.usage_count = b.usage_count ∧ a.id ≤ b.id)) ∧
    (∀ t ∈ search_tags db kw limit, t ∈ db.tags ∧ t.deleted_at = none ∧
      containsChars (t.name.data.map Char.toLower) (kw.data.map Char.toLower) = true) ∧
    (search_tags db kw limit).length ≤ limit ∧
    (kw ≠ "" → (db.tags.filter (matchesKeyword kw)).length ≤ limit →
      ∀ t ∈ db.tags, matchesKeyword kw t = true → t ∈ search_tags db kw limit) := by
  refine ⟨?_, ?_, ?_, ?_, ?_⟩
  · unfold search_tags
    rw [if_pos rfl]
  · unfold search_tags
    split
    · simp
    · have hsorted :
          ((db.tags.filter (matchesKeyword kw)).mergeSort tagLE).Pairwise
            (fun a b => tagLE a b = true) :=
        List.sorted_mergeSort (fun a b c => tagLE_trans a b c) tagLE_total _
      have htake := hsorted.sublist (List.take_sublist limit _)
      apply List.Pairwise.imp ?_ htake
      intro a b hab
      simpa [tagLE, Bool.or_eq_true, decide_eq_true_eq] using hab
  · intro t ht
    unfold search_tags at ht
    split at ht
    · simp at ht
    · have hmem : t ∈ (db.tags.filter (matchesKeyword kw)).mergeSort tagLE :=
        (List.take_sublist limit _).mem ht
      rw [List.mem_mergeSort, List.mem_filter] at hmem
      obtain ⟨hmem1, hmem2⟩ := hmem
      unfold matchesKeyword at hmem2
      simp only [Bool.and_eq_true, Option.isNone_iff_eq_none] at hmem2
      exact ⟨hmem1, hmem2.1, hmem2.2⟩
  · unfold search_tags
    split
    · simp
    · rw [List.length_take]
      omega
  · intro hne hlen t ht hmatch
    unfold search_tags
    rw [if_neg hne]
    have hlen2 : ((db.tags.filter (matchesKeyword kw)).mergeSort tagLE).length ≤ limit := by
      rw [List.length_mergeSort]
      exact hlen
    rw [List.take_of_length_le hlen2, List.mem_mergeSort, List.mem_filter]
    exact ⟨ht, hmatch⟩

/-- C8 witness: the search properties evaluated on the one-tag database with
the keyword "RI" (matching "trip" case-insensitively). -/
theorem search_tags_spec_witness :
    search_tags dbTagW "" 10 = [] ∧
    (∀ t ∈ search_tags dbTagW "RI" 10, t ∈ dbTagW.tags ∧ t.deleted_at = none ∧
      containsChars (t.name.data.map Char.toLower) ("RI".data.map Char.toLower) = true) ∧
    (∀ t ∈ dbTagW.tags, matchesKeyword "RI" t = true →
      t ∈ search_tags dbTagW "RI" 10) := by
  refine ⟨?_, ?_, ?_⟩
  · exact (search_tags_spec dbTagW "RI" 10).1
  · exact (search_tags_spec dbTagW "RI" 10).2.2.1
  · exact (search_tags_spec dbTagW "RI" 10).2.2.2.2 (by decide) (by decide)

end FileManager
